import Mathlib

/-!
A shallow embedding, in Lean 4, of the logic of the visible Open MCT
repository fragment, together with theorems settling the specification's
claims about it.

Embedded modules (translated from the JavaScript source):

* `platform/framework/src/ExtensionRegistrar.js` — registration of
  categorized extensions with a dependency-injection container;
* `platform/framework/src/PartialConstructor.js` — the two-stage curried
  constructor;
* `platform/features/table/src/TableConfiguration.js` — column building,
  row-value extraction and column-configuration persistence;
* the `CopyPolicy` policy file.

JavaScript conventions used by the embedding:

* JS values that may be `undefined` are `Option`s; a JS object field that
  may be absent is an `Option` field.
* JS objects acting as string-keyed records are association lists
  `List (String × v)`; JavaScript guarantees their keys are unique, which
  appears as a `Nodup` hypothesis where a theorem needs it.
* Side effects on the Angular module (`app.factory(...)`), on the `$log`
  service and on the registrar's private bookkeeping are made explicit as
  a state record threaded through the registration functions.
* Fallible evaluation is modelled with `JsOutcome` (normal completion or a
  thrown `TypeError`).  The one source of thrown errors in the embedded
  fragment is the expression `arguments.slice()`: an ECMAScript `arguments`
  object is array-like but is *not* an `Array` — its prototype is
  `Object.prototype` (CreateUnmappedArgumentsObject /
  CreateMappedArgumentsObject both set [[Prototype]] to %Object.prototype%),
  so it has no `slice` member; `arguments.slice` evaluates to `undefined`
  and calling it throws a `TypeError`.
-/

namespace OpenMCT

/-! ### JavaScript runtime facts needed by the embedding -/

/-- Normal completion or a thrown error, for the few embedded expressions
that can throw at run time. -/
inductive JsOutcome (α : Type) where
  | ok (value : α)
  | thrown (message : String)
deriving DecidableEq, Repr

/-- The member names reachable on an ECMAScript `arguments` object: its own
properties (`length`, `callee`, `@@iterator` is omitted as it is not a plain
name) and the methods inherited from `Object.prototype`, which is its
prototype.  `Array.prototype` is *not* on its prototype chain, so `slice`
is absent. -/
def argumentsObjectMemberNames : List String :=
  ["length", "callee",
   "constructor", "hasOwnProperty", "isPrototypeOf", "propertyIsEnumerable",
   "toLocaleString", "toString", "valueOf"]

/-- Evaluate the JS expression `arguments.slice()` where `args` are the
arguments the function was called with.  If `slice` were reachable it would
return a (shallow) array copy of the arguments; since it is not, the call
throws a `TypeError`. -/
def argumentsSlice {α : Type} (args : List α) : JsOutcome (List α) :=
  if "slice" ∈ argumentsObjectMemberNames then .ok args
  else .thrown "arguments.slice is not a function"

/-! ### PartialConstructor.js -/

/-- A JavaScript constructor function, as `PartialConstructor` consumes one:
`applyTo args` is the state `Constructor.apply(instance, args)` establishes
on the fresh object `instance`, and `prototype` is the constructor's
`prototype` property. -/
structure JsConstructor (α β π : Type) where
  applyTo : List α → β
  prototype : π

/-- The object produced by the inner function of `PartialConstructor`: a
fresh object on which the constructor was applied, carrying a `prototype`
property copied from the constructor. -/
structure ConstructedInstance (β π : Type) where
  fields : β
  prototype : π
deriving DecidableEq

namespace PartialConstructor

/-- The inner function (`// Bind everything else`) of
`PartialConstructor.js`: `var other = arguments.slice(), instance = {};
Constructor.apply(instance, dependencies.concat(other));
instance.prototype = Constructor.prototype; return instance;`. -/
def secondStage {α β π : Type} (Constructor : JsConstructor α β π)
    (dependencies other_args : List α) : JsOutcome (ConstructedInstance β π) :=
  match argumentsSlice other_args with
  | .thrown m => .thrown m
  | .ok other =>
      .ok { fields := Constructor.applyTo (dependencies ++ other)
            prototype := Constructor.prototype }

/-- The outer function (`// Bind services`) of `PartialConstructor.js`:
`var dependencies = arguments.slice(); return function () {...};`. -/
def firstStage {α β π : Type} (Constructor : JsConstructor α β π)
    (args : List α) : JsOutcome (List α → JsOutcome (ConstructedInstance β π)) :=
  match argumentsSlice args with
  | .thrown m => .thrown m
  | .ok dependencies => .ok (secondStage Constructor dependencies)

end PartialConstructor

/-! ### ExtensionRegistrar.js -/

/-- A resolved extension as the registrar sees it: either a constructor
function or a plain (non-function) value, optionally carrying `key` and
`depends` properties.  (`typeof extension === 'function'` is the
discriminating test in `makeServiceArgument`.) -/
structure Extension where
  isFunction : Bool
  key : Option String
  depends : Option (List String)
deriving DecidableEq, Repr

/-- `identify(category, extension, index)`: build the unique registration
name of an individual extension.  `extension.key ? (extension.key + "-" +
index) : index` — note the *truthiness* test: an absent key and an empty
string key both take the `index` branch. -/
def identify (category : String) (extension : Extension) (index : Nat) : String :=
  let name :=
    match extension.key with
    | some k => if k = "" then toString index else k ++ "-" ++ toString index
    | none => toString index
  category ++ "[" ++ name ++ "]"

/-- `echo()`: `return arguments.slice();` — intended (per its comment) to
echo its arguments as the aggregate value of a category, invoked by the
injector with the individually resolved extensions. -/
def echo {α : Type} (args : List α) : JsOutcome (List α) :=
  argumentsSlice args

/-- The factory half of a registered service argument: either a curried
constructor built by `new PartialConstructor(extension)`, the closure
`staticFunction(extension)` returning the extension value unchanged, or the
`echo` function used for aggregate (suffixed) registrations. -/
inductive FactoryImpl where
  | viaPartialConstructor (extension : Extension)
  | viaStaticFunction (extension : Extension)
  | viaEcho
deriving DecidableEq, Repr

/-- One `app.factory(name, dependencyArrayWithFactory)` registration: the
name, the declared dependency names, and the factory function. -/
structure Factory where
  name : String
  dependencies : List String
  impl : FactoryImpl
deriving DecidableEq, Repr

/-- `makeServiceArgument(category, extension)`: the extension's `depends`
(defaulted to `[]`) concatenated with the factory function chosen by the
`typeof extension === 'function'` test.  The `category` parameter is unused
in the source as well. -/
def makeServiceArgument (category : String) (extension : Extension) :
    List String × FactoryImpl :=
  (extension.depends.getD [],
   if extension.isFunction then .viaPartialConstructor extension
   else .viaStaticFunction extension)

/-- Modelled from the spec: `Constants.EXTENSION_SUFFIX` — `Constants.js`
is not part of the visible sources.  The spec's concrete scenario names the
aggregate factory `actions[]` for category `actions`, and the registrar's
own comment gives the example `types[]`, so the suffix is `[]`. -/
def EXTENSION_SUFFIX : String := "[]"

/-- The observable state of one `ExtensionRegistrar` instance: the
private `registeredCategories` map (as the list of category names marked
`true`, in marking order), the factories registered on the Angular module,
the warnings emitted through `$log.warn`, and the (category, index) pairs
passed to custom registrars. -/
structure RegistrarState where
  registeredCategories : List String
  factories : List Factory
  warnings : List String
  customCalls : List (String × Nat)
deriving DecidableEq, Repr

/-- The message built by the duplicate-category branch:
`["Tried to register extensions for category ", category, " more than
once. Ignoring all but first set."].join("")`. -/
def duplicateWarning (category : String) : String :=
  "Tried to register extensions for category " ++ category ++
    " more than once. Ignoring all but first set."

/-- The closure `registerExtension(extension, index)` inside
`registerExtensionsForCategory`: push the identified name onto `names` and
register an individual factory under it. -/
def registerExtension (category : String) (acc : RegistrarState × List String)
    (extension : Extension) (index : Nat) : RegistrarState × List String :=
  let name := identify category extension index
  let serviceArgument := makeServiceArgument category extension
  ({ acc.1 with
      factories := acc.1.factories ++
        [⟨name, serviceArgument.1, serviceArgument.2⟩] },
   acc.2 ++ [name])

/-- `extensions.forEach(registerExtension)`: fold `registerExtension` over
the extension list with its running index. -/
def registerEach (category : String) :
    RegistrarState × List String → List Extension → Nat →
      RegistrarState × List String
  | acc, [], _ => acc
  | acc, e :: es, i =>
      registerEach category (registerExtension category acc e i) es (i + 1)

/-- `registerExtensionArraysForCategory(category, names)`: register the
aggregate factory `app.factory(category + Constants.EXTENSION_SUFFIX,
names.concat([echo]))`. -/
def registerExtensionArraysForCategory (st : RegistrarState)
    (category : String) (names : List String) : RegistrarState :=
  { st with factories :=
      st.factories ++ [⟨category ++ EXTENSION_SUFFIX, names, .viaEcho⟩] }

/-- `registerExtensionsForCategory(category, extensions)`.
`customRegistrars` is the set of categories that have a custom registration
function; invoking such a function is recorded in `customCalls`. -/
def registerExtensionsForCategory (customRegistrars : List String)
    (st : RegistrarState) (category : String) (extensions : List Extension) :
    RegistrarState :=
  if category ∈ st.registeredCategories then
    { st with warnings := st.warnings ++ [duplicateWarning category] }
  else if category ∈ customRegistrars then
    { st with
        customCalls := st.customCalls ++
          (List.range extensions.length).map (fun i => (category, i)),
        registeredCategories := st.registeredCategories ++ [category] }
  else
    let acc := registerEach category (st, []) extensions 0
    let st' := registerExtensionArraysForCategory acc.1 category acc.2
    { st' with registeredCategories := st'.registeredCategories ++ [category] }

/-- `registerExtensionGroup(extensionGroup)`, the public
`registerExtensions` method: `Object.keys(extensionGroup).forEach(...)`.
The group is the object's (category, extension list) pairs in key order. -/
def registerExtensions (customRegistrars : List String)
    (extensionGroup : List (String × List Extension)) (st : RegistrarState) :
    RegistrarState :=
  extensionGroup.foldl
    (fun s p => registerExtensionsForCategory customRegistrars s p.1 p.2) st

/-- Specification-side description of the factory registered for one
extension: the name from `identify` and the service argument from
`makeServiceArgument`. -/
def individualFactory (category : String) (extension : Extension)
    (index : Nat) : Factory :=
  ⟨identify category extension index,
   (makeServiceArgument category extension).1,
   (makeServiceArgument category extension).2⟩

/-- `f i a0, f (i+1) a1, ...`: map with a running index starting at `i`. -/
def mapWithIndexFrom {α β : Type} (f : Nat → α → β) : Nat → List α → List β
  | _, [] => []
  | i, a :: as => f i a :: mapWithIndexFrom f (i + 1) as

/-! ### TableConfiguration.js — buildColumns -/

/-- An opaque domain- or range-metadata record (`domainMetadata` /
`rangeMetadata`); the embedded logic never inspects it. -/
abbrev MetaEntry := String

/-- One element of the `metadata` array passed to `buildColumns`: its
`domains` and `ranges` properties may each be absent (`metadatum.domains ||
[]` in the source). -/
structure Metadatum where
  domains : Option (List MetaEntry)
  ranges : Option (List MetaEntry)
deriving DecidableEq, Repr

/-- A column definition held in `this.columns`: `new
DomainColumn(domainMetadata, ...)`, `new RangeColumn(rangeMetadata, ...)`
or `new NameColumn()`. -/
inductive Column where
  | domainColumn (m : MetaEntry)
  | rangeColumn (m : MetaEntry)
  | nameColumn
deriving DecidableEq, Repr

/-- `TableConfiguration.prototype.addColumn(column, index)`: push when
`index` is `undefined`, else `columns.splice(index, 0, column)`. -/
def addColumn (columns : List Column) (column : Column)
    (index : Option Nat) : List Column :=
  match index with
  | none => columns ++ [column]
  | some i => columns.take i ++ [column] ++ columns.drop i

/-- The body of `metadata.forEach`: push this metadatum's domain columns
first, then its range columns. -/
def buildColumnsStep (columns : List Column) (metadatum : Metadatum) :
    List Column :=
  let withDomains := (metadatum.domains.getD []).foldl
    (fun cs m => addColumn cs (.domainColumn m) none) columns
  (metadatum.ranges.getD []).foldl
    (fun cs m => addColumn cs (.rangeColumn m) none) withDomains

/-- `TableConfiguration.prototype.buildColumns(metadata)`: reset
`this.columns` to `[]`, fold over the metadata if present, and prepend a
`NameColumn` at index 0 when at least one column was produced.  Returns the
resulting `this.columns`. -/
def buildColumns (metadata : Option (List Metadatum)) : List Column :=
  match metadata with
  | none => []
  | some ms =>
      let columns := ms.foldl buildColumnsStep []
      if columns.length > 0 then addColumn columns .nameColumn (some 0)
      else columns

/-- Specification-side closed form of the column list produced by the
`metadata.forEach` loop: per metadatum, domain columns then range
columns. -/
def flatColumns (ms : List Metadatum) : List Column :=
  ms.foldr
    (fun m acc =>
      (m.domains.getD []).map .domainColumn ++
        (m.ranges.getD []).map .rangeColumn ++ acc)
    []

/-! ### TableConfiguration.js — getRowValues -/

/-- A formatted cell as returned by `column.getValue(telemetryObject,
datum)` when it is not `undefined`: an object whose `text` property may be
absent. -/
structure Cell where
  text : Option String
deriving DecidableEq, Repr

/-- A column as `getRowValues` consumes one: `getTitle()` may return a
falsy value (modelled `none`; the empty string is handled separately), and
`getValue` maps the (telemetry object, datum) pair — folded into one value
of type `δ` — to a cell or `undefined`. -/
structure RowColumn (δ : Type) where
  title : Option String
  getValue : δ → Option Cell

/-- The row object built by `getRowValues`: a JS object whose properties
hold a cell or `undefined` (`none`). -/
abbrev RowMap := List (String × Option Cell)

/-- Property read `rowObject[k]`: `none` when the property is absent,
`some none` when it holds `undefined`, `some (some c)` when it holds a
cell.  (JS code cannot tell the first two apart; the embedding keeps them
distinct and treats them alike wherever the source tests `=== undefined`.) -/
def rowGet (row : RowMap) (k : String) : Option (Option Cell) :=
  (row.find? (fun p => p.1 == k)).map Prod.snd

/-- Property write `rowObject[k] = v`: overwrite in place when present,
append otherwise. -/
def rowSet (row : RowMap) (k : String) (v : Option Cell) : RowMap :=
  if (row.find? (fun p => p.1 == k)).isSome then
    row.map (fun p => if p.1 == k then (k, v) else p)
  else row ++ [(k, v)]

/-- `self.getColumnTitle(column) || 'Column ' + (i + 1)`: the effective
title of the column at position `i` (0-based; the default uses `i + 1`).
An absent or empty title is falsy. -/
def effectiveTitle (i : Nat) (title : Option String) : String :=
  match title with
  | some t => if t = "" then "Column " ++ toString (i + 1) else t
  | none => "Column " ++ toString (i + 1)

/-- `if (columnValue !== undefined && columnValue.text === undefined)
columnValue.text = '';` -/
def normalizeValue (v : Option Cell) : Option Cell :=
  match v with
  | none => none
  | some c => some { text := some (c.text.getD "") }

/-- The guard `rowObject[columnTitle] === undefined ||
rowObject[columnTitle].text === undefined ||
rowObject[columnTitle].text.length === 0` on the existing entry. -/
def shouldReplace (existing : Option (Option Cell)) : Bool :=
  match existing with
  | none => true
  | some none => true
  | some (some c) =>
      match c.text with
      | none => true
      | some s => s.length == 0

/-- One iteration of the `reduce` in `getRowValues`, for the column at
position `i`. -/
def rowStep {δ : Type} (datum : δ) (acc : RowMap) (i : Nat)
    (column : RowColumn δ) : RowMap :=
  let columnTitle := effectiveTitle i column.title
  let columnValue := normalizeValue (column.getValue datum)
  if shouldReplace (rowGet acc columnTitle) then
    rowSet acc columnTitle columnValue
  else acc

/-- The `reduce` of `getRowValues`, starting from accumulator `acc` with
the next column at position `i`. -/
def getRowValuesFrom {δ : Type} (datum : δ) :
    RowMap → Nat → List (RowColumn δ) → RowMap
  | acc, _, [] => acc
  | acc, i, c :: cs => getRowValuesFrom datum (rowStep datum acc i c) (i + 1) cs

/-- `TableConfiguration.prototype.getRowValues(telemetryObject, datum)`:
reduce the columns, with their indices, into a row object keyed by
effective column title. -/
def getRowValues {δ : Type} (columns : List (RowColumn δ)) (datum : δ) :
    RowMap :=
  getRowValuesFrom datum [] 0 columns

/-! ### TableConfiguration.js — saveColumnConfiguration -/

/-- A column-visibility configuration: a JS object mapping column titles to
booleans (`configuration.table.columns` in the domain object's model). -/
abbrev ColumnConfig := List (String × Bool)

/-- `Object.keys(obj)`. -/
def objectKeys (c : ColumnConfig) : List String := c.map Prod.fst

/-- Property read `obj[k]` on a configuration object (`none` =
`undefined`). -/
def objectGet (c : ColumnConfig) (k : String) : Option Bool :=
  (c.find? (fun p => p.1 == k)).map Prod.snd

/-- The file-local `equal(obj1, obj2)` helper: equal key counts, and every
key of `obj1` maps to a strictly-equal value in both (`obj1[key] ===
obj2[key]`). -/
def equal (obj1 obj2 : ColumnConfig) : Bool :=
  (objectKeys obj1).length == (objectKeys obj2).length &&
    (objectKeys obj1).all (fun key => objectGet obj1 key == objectGet obj2 key)

/-- Shallow key-wise equality as the specification words it: the same keys
with the same value for each — equivalently, every property read agrees. -/
def sameShallowConfig (c1 c2 : ColumnConfig) : Prop :=
  ∀ k, objectGet c1 k = objectGet c2 k

/-- `model.configuration.table.columns`, where each level may be absent. -/
structure TableSection where
  columns : Option ColumnConfig
deriving DecidableEq, Repr

/-- The `configuration` property of a domain object's model. -/
structure ModelConfiguration where
  table : Option TableSection
deriving DecidableEq, Repr

/-- The domain object's model, as far as this code touches it. -/
structure DomainModel where
  configuration : Option ModelConfiguration
deriving DecidableEq, Repr

/-- The mutation callback passed to `useCapability('mutation', ...)`:
`model.configuration = model.configuration || {}; model.configuration.table
= model.configuration.table || {}; model.configuration.table.columns =
columnConfig;`. -/
def mutateModel (model : DomainModel) (columnConfig : ColumnConfig) :
    DomainModel :=
  let configuration := model.configuration.getD ⟨none⟩
  let table := configuration.table.getD ⟨none⟩
  let table' : TableSection := { table with columns := some columnConfig }
  let configuration' : ModelConfiguration :=
    { configuration with table := some table' }
  { model with configuration := some configuration' }

/-- The state a `TableConfiguration` instance owns that
`saveColumnConfiguration` can touch: the domain object's model, the cached
`this.columnConfiguration`, and a count of `useCapability('mutation', ...)`
invocations. -/
structure TableConfigState where
  domainObject : DomainModel
  columnConfiguration : ColumnConfig
  mutationCalls : Nat
deriving DecidableEq, Repr

/-- `TableConfiguration.prototype.saveColumnConfiguration(columnConfig)`:
mutate (and cache) only when `equal` says the configuration changed. -/
def saveColumnConfiguration (st : TableConfigState)
    (columnConfig : ColumnConfig) : TableConfigState :=
  if equal st.columnConfiguration columnConfig then st
  else
    { domainObject := mutateModel st.domainObject columnConfig,
      columnConfiguration := columnConfig,
      mutationCalls := st.mutationCalls + 1 }

/-! ### CopyPolicy -/

/-- The `type` capability of a domain object, as the policy consumes it:
`hasFeature(...)` is membership in the type's feature set. -/
structure TypeCapability where
  features : List String
deriving DecidableEq, Repr

/-- Modelled from the spec: `type.hasFeature('creation')` — the type
capability class is not part of the visible sources; the spec reads it as
"the target object's type lacks a 'creation' feature", i.e. feature-set
membership. -/
def hasFeature (t : TypeCapability) (feature : String) : Bool :=
  t.features.contains feature

/-- A domain object, as far as the policy touches it:
`getCapability('type')` may return `undefined`. -/
structure DomainObject where
  typeCapability : Option TypeCapability
deriving DecidableEq, Repr

/-- The action context: `context.selectedObject || context.domainObject`. -/
structure ActionContext where
  selectedObject : Option DomainObject
  domainObject : Option DomainObject
deriving DecidableEq, Repr

/-- The file-local `selectedObject(context)` helper (`||` fallback). -/
def contextTarget (context : ActionContext) : Option DomainObject :=
  match context.selectedObject with
  | some o => some o
  | none => context.domainObject

/-- The file-local `allowCreation(domainObject)` helper:
`Boolean(type && type.hasFeature('creation'))` where `type = domainObject
&& domainObject.getCapability('type')`. -/
def allowCreation (domainObject : Option DomainObject) : Bool :=
  match domainObject with
  | none => false
  | some o =>
      match o.typeCapability with
      | none => false
      | some t => hasFeature t "creation"

/-- An action, as far as the policy touches it:
`action.getMetadata().key`. -/
structure Action where
  metadataKey : String
deriving DecidableEq, Repr

/-- `CopyPolicy.prototype.allow(action, context)`. -/
def CopyPolicy.allow (action : Action) (context : ActionContext) : Bool :=
  if action.metadataKey = "copy" then allowCreation (contextTarget context)
  else true

/-! ## Theorems -/

/-- Closed form of the `extensions.forEach(registerExtension)` loop: it
appends one individual factory per extension, and records the identified
names in order. -/
theorem registerEach_eq (category : String) (st : RegistrarState)
    (names : List String) (es : List Extension) (i : Nat) :
    registerEach category (st, names) es i =
      ({ st with factories := st.factories ++
          mapWithIndexFrom (fun j e => individualFactory category e j) i es },
       names ++ mapWithIndexFrom (fun j e => identify category e j) i es) := by
  induction es generalizing st names i with
  | nil => simp [registerEach, mapWithIndexFrom]
  | cons e es ih =>
      simp [registerEach, registerExtension, mapWithIndexFrom, ih,
        individualFactory, List.append_assoc]

/-- C1: for a category `C` not in the registered-category set and with no
custom registrar, `registerExtensions({C: exts})` registers exactly one
factory per extension (named by `identify`, with the extension's service
argument) followed by exactly one aggregate factory named `C` plus the
extension suffix, and marks `C` as registered; warnings and custom-registrar
calls are untouched. -/
theorem C1_register_fresh_category (customRegistrars : List String)
    (st : RegistrarState) (C : String) (exts : List Extension)
    (h1 : C ∉ st.registeredCategories) (h2 : C ∉ customRegistrars) :
    registerExtensions customRegistrars [(C, exts)] st =
      { st with
          factories := st.factories ++
            mapWithIndexFrom (fun i e => individualFactory C e i) 0 exts ++
            [⟨C ++ EXTENSION_SUFFIX,
              mapWithIndexFrom (fun i e => identify C e i) 0 exts,
              .viaEcho⟩],
          registeredCategories := st.registeredCategories ++ [C] } := by
  simp [registerExtensions, registerExtensionsForCategory, h1, h2,
    registerEach_eq, registerExtensionArraysForCategory, List.append_assoc]

/-- Witness for C1: the spec's concrete scenario — registering
`{actions: [{key:"copy"}, {key:"delete"}]}` against an empty registrar. -/
theorem C1_register_fresh_category_witness :
    registerExtensions [] [("actions",
        [⟨false, some "copy", none⟩, ⟨false, some "delete", none⟩])]
      ⟨[], [], [], []⟩ =
      { RegistrarState.mk [] [] [] [] with
          factories := [] ++
            mapWithIndexFrom (fun i e => individualFactory "actions" e i) 0
              [⟨false, some "copy", none⟩, ⟨false, some "delete", none⟩] ++
            [⟨"actions" ++ EXTENSION_SUFFIX,
              mapWithIndexFrom (fun i e => identify "actions" e i) 0
                [⟨false, some "copy", none⟩, ⟨false, some "delete", none⟩],
              .viaEcho⟩],
          registeredCategories := [] ++ ["actions"] } :=
  C1_register_fresh_category [] ⟨[], [], [], []⟩ "actions"
    [⟨false, some "copy", none⟩, ⟨false, some "delete", none⟩]
    (by decide) (by decide)

/-- C2: for a category `C` already in the registered-category set, a second
`registerExtensions` call containing `C` changes nothing but the warning
log, to which it appends exactly one duplicate-category warning: no factory
is registered (the second call's extensions are dropped, not merged) and no
error is raised (the function is total and returns normally). -/
theorem C2_duplicate_category_warns (customRegistrars : List String)
    (st : RegistrarState) (C : String) (exts : List Extension)
    (h : C ∈ st.registeredCategories) :
    registerExtensions customRegistrars [(C, exts)] st =
      { st with warnings := st.warnings ++ [duplicateWarning C] } := by
  simp [registerExtensions, registerExtensionsForCategory, h]

/-- Witness for C2: the spec's concrete scenario — a second call with
`{actions: [{key:"view"}]}` after `actions` was registered. -/
theorem C2_duplicate_category_warns_witness :
    registerExtensions [] [("actions", [⟨false, some "view", none⟩])]
      ⟨["actions"], [], [], []⟩ =
      { RegistrarState.mk ["actions"] [] [] [] with
          warnings := [] ++ [duplicateWarning "actions"] } :=
  C2_duplicate_category_warns [] ⟨["actions"], [], [], []⟩ "actions"
    [⟨false, some "view", none⟩] (by decide)

/-- C3 counterexample: the claim reads every declared `key` as giving the
name `category[key-index]`, but `identify` tests the key for JS
*truthiness*: an extension declaring the empty-string key `""` at index 2
in category `types` is registered under `types[2]`, not the claimed
`types[-2]`. -/
theorem C3_identify_counterexample :
    identify "types" ⟨false, some "", none⟩ 2 ≠ "types[-2]" := by decide

/-- C3 (amended): the synthesized name is `category[key-index]` when the
extension declares a *non-empty* key, and `category[index]` otherwise
(missing key or empty-string key); in particular `{key: "k"}` at index 2 in
category `types` is registered under `types[k-2]`. -/
theorem C3_identify_names :
    (∀ (category : String) (ext : Extension) (index : Nat) (k : String),
        ext.key = some k → k ≠ "" →
        identify category ext index =
          category ++ "[" ++ k ++ "-" ++ toString index ++ "]")
    ∧ (∀ (category : String) (ext : Extension) (index : Nat),
        ext.key = none ∨ ext.key = some "" →
        identify category ext index =
          category ++ "[" ++ toString index ++ "]")
    ∧ identify "types" ⟨false, some "k", none⟩ 2 = "types[k-2]" := by
  refine ⟨fun category ext index k hk hne => ?_,
    fun category ext index hk => ?_, by decide⟩
  · simp [identify, hk, hne, String.append_assoc]
  · rcases hk with hk | hk <;> simp [identify, hk]

/-- Witness for C3 (amended): `{key: "k", depends: ["a","b"]}` at index 2
in category `types` is registered under `types[k-2]`. -/
theorem C3_identify_names_witness :
    identify "types" ⟨false, some "k", some ["a", "b"]⟩ 2 =
      "types" ++ "[" ++ "k" ++ "-" ++ toString 2 ++ "]" :=
  C3_identify_names.1 "types" ⟨false, some "k", some ["a", "b"]⟩ 2 "k"
    rfl (by decide)

/-- C4 (code bug): the aggregate factory registered for a category is
`echo`, whose body is `return arguments.slice();` — but an `arguments`
object has no `slice` member (its prototype is `Object.prototype`, not
`Array.prototype`), so invoking the aggregate factory with the resolved
extensions throws a `TypeError` instead of returning the list.  The
function's own comment ("Echo arguments") and the spec agree on the
intent. -/
theorem C4_aggregate_factory_throws (resolved : List Extension) :
    echo resolved = JsOutcome.thrown "arguments.slice is not a function" := by
  simp [echo, argumentsSlice, argumentsObjectMemberNames]

/-- C5 (code bug): both stages of `PartialConstructor` begin with
`arguments.slice()`, so the first stage (dependency binding) throws a
`TypeError` whenever invoked, and so would the second: neither stage can
return normally, contradicting the claimed two-stage construction. -/
theorem C5_PartialConstructor_throws (α β π : Type)
    (F : JsConstructor α β π) (d a : List α) :
    PartialConstructor.firstStage F d =
        JsOutcome.thrown "arguments.slice is not a function"
      ∧ PartialConstructor.secondStage F d a =
        JsOutcome.thrown "arguments.slice is not a function" := by
  constructor <;>
    simp [PartialConstructor.firstStage, PartialConstructor.secondStage,
      argumentsSlice, argumentsObjectMemberNames]

/-- Appending columns one by one through `addColumn` with no index is list
append of the mapped entries. -/
theorem foldl_addColumn (f : MetaEntry → Column) (cs : List Column)
    (l : List MetaEntry) :
    l.foldl (fun acc m => addColumn acc (f m) none) cs = cs ++ l.map f := by
  induction l generalizing cs with
  | nil => simp
  | cons m l ih => rw [List.foldl_cons, ih]; simp [addColumn]

/-- One `metadata.forEach` iteration appends this metadatum's domain
columns, then its range columns. -/
theorem buildColumnsStep_eq (cs : List Column) (m : Metadatum) :
    buildColumnsStep cs m =
      cs ++ (m.domains.getD []).map .domainColumn ++
        (m.ranges.getD []).map .rangeColumn := by
  simp [buildColumnsStep, foldl_addColumn, List.append_assoc]

/-- Unfolding `flatColumns` on a cons. -/
theorem flatColumns_cons (m : Metadatum) (ms : List Metadatum) :
    flatColumns (m :: ms) =
      (m.domains.getD []).map .domainColumn ++
        ((m.ranges.getD []).map .rangeColumn ++ flatColumns ms) := by
  simp [flatColumns]

/-- The whole `metadata.forEach` loop appends `flatColumns`. -/
theorem foldl_buildColumnsStep (ms : List Metadatum) (cs : List Column) :
    ms.foldl buildColumnsStep cs = cs ++ flatColumns ms := by
  induction ms generalizing cs with
  | nil => simp [flatColumns]
  | cons m ms ih =>
      simp [buildColumnsStep_eq, ih, flatColumns, List.append_assoc]

/-- Closed form of `buildColumns` on present metadata: the per-metadatum
domain-then-range columns, with a `NameColumn` prepended when any column
was produced. -/
theorem buildColumns_some_eq (ms : List Metadatum) :
    buildColumns (some ms) =
      if flatColumns ms = [] then []
      else .nameColumn :: flatColumns ms := by
  simp only [buildColumns, foldl_buildColumnsStep, List.nil_append]
  rcases h : flatColumns ms with _ | ⟨c, cs⟩ <;> simp [addColumn]

/-- C6 counterexample: the claim orders *all* domain columns before *all*
range columns, but `buildColumns` orders per metadatum.  For the metadata
list `[{ranges: [r]}, {domains: [d]}]` — one domain column and one range
column in total — the code produces `[Name, Range, Domain]`, not the
claimed `[Name, Domain, Range]`. -/
theorem C6_buildColumns_counterexample :
    buildColumns (some [⟨some [], some ["r"]⟩, ⟨some ["d"], some []⟩]) ≠
      [Column.nameColumn, Column.domainColumn "d", Column.rangeColumn "r"] := by
  decide

/-- C6 (amended): `buildColumns` produces, for each metadatum in input
order, that metadatum's domain columns first and then its range columns,
with a synthesized name column prepended at position 0 when any column was
produced; in particular a single metadatum with one domain and one range
yields exactly [Name, Domain, Range]. -/
theorem C6_buildColumns_order :
    (∀ ms : List Metadatum,
        buildColumns (some ms) =
          if flatColumns ms = [] then []
          else Column.nameColumn :: flatColumns ms)
    ∧ ∀ d r : MetaEntry,
        buildColumns (some [⟨some [d], some [r]⟩]) =
          [Column.nameColumn, Column.domainColumn d, Column.rangeColumn r] := by
  refine ⟨buildColumns_some_eq, fun d r => ?_⟩
  simp [buildColumns_some_eq, flatColumns]

/-- C10: absent metadata, or metadata whose entries have no domains and no
ranges, yield an empty column list; and whenever the column list is
nonempty it consists of the name column prepended to a nonempty list of
produced columns — the name column is never produced alone. -/
theorem C10_buildColumns_empty :
    buildColumns none = []
    ∧ (∀ ms : List Metadatum,
        (∀ m ∈ ms, m.domains.getD [] = [] ∧ m.ranges.getD [] = []) →
        buildColumns (some ms) = [])
    ∧ ∀ ms : List Metadatum, buildColumns (some ms) ≠ [] →
        ∃ rest, buildColumns (some ms) = Column.nameColumn :: rest ∧
          rest ≠ [] := by
  refine ⟨rfl, fun ms h => ?_, fun ms h => ?_⟩
  · have hflat : flatColumns ms = [] := by
      induction ms with
      | nil => rfl
      | cons m ms ih =>
          have hm := h m (by simp)
          rw [flatColumns_cons, hm.1, hm.2,
            ih fun m' hm' => h m' (by simp [hm'])]
          rfl
    simp [buildColumns_some_eq, hflat]
  · rw [buildColumns_some_eq] at h ⊢
    rcases hflat : flatColumns ms with _ | ⟨c, cs⟩
    · simp [hflat] at h
    · exact ⟨c :: cs, by simp, by simp⟩

/-- Witness for C10: metadata `[{domains: [], ranges: undefined}]` has no
domain or range entries, and yields no columns at all. -/
theorem C10_buildColumns_empty_witness :
    buildColumns (some [⟨some [], none⟩]) = [] :=
  C10_buildColumns_empty.2.1 [⟨some [], none⟩] (by decide)

/-- C8: `CopyPolicy.allow` permits every action whose metadata key is not
`copy`; for a `copy` action it permits exactly when the target object
(`selectedObject` falling back to `domainObject`) exists and has a `type`
capability whose features include `creation`. -/
theorem C8_copy_policy (action : Action) (context : ActionContext) :
    (action.metadataKey ≠ "copy" → CopyPolicy.allow action context = true)
    ∧ (action.metadataKey = "copy" →
        (CopyPolicy.allow action context = true ↔
          ∃ o t, contextTarget context = some o ∧
            o.typeCapability = some t ∧ "creation" ∈ t.features)) := by
  constructor
  · intro h
    simp [CopyPolicy.allow, h]
  · intro h
    simp only [CopyPolicy.allow, h, if_pos]
    rcases htarget : contextTarget context with _ | o
    · simp [allowCreation]
    · rcases htype : o.typeCapability with _ | t
      · simp [allowCreation, htype]
      · simp [allowCreation, htype, hasFeature]

/-- Witness for C8: a `copy` action against a context whose selected object
has a type with the `creation` feature is allowed. -/
theorem C8_copy_policy_witness :
    CopyPolicy.allow ⟨"copy"⟩
      ⟨some ⟨some ⟨["creation", "persistence"]⟩⟩, none⟩ = true :=
  ((C8_copy_policy ⟨"copy"⟩
      ⟨some ⟨some ⟨["creation", "persistence"]⟩⟩, none⟩).2 rfl).mpr
    ⟨⟨some ⟨["creation", "persistence"]⟩⟩, ⟨["creation", "persistence"]⟩,
      rfl, rfl, by decide⟩

/-- A property read is `undefined` exactly when the key is absent. -/
theorem objectGet_eq_none_iff (c : ColumnConfig) (k : String) :
    objectGet c k = none ↔ k ∉ objectKeys c := by
  rw [objectGet, Option.map_eq_none', List.find?_eq_none]
  constructor
  · intro h hmem
    obtain ⟨p, hp, hk⟩ := List.mem_map.mp hmem
    exact h p hp (by simp [hk])
  · intro h p hp hk
    rw [beq_iff_eq] at hk
    exact h (List.mem_map.mpr ⟨p, hp, hk⟩)

/-- A property read succeeds exactly when the key is present. -/
theorem objectGet_isSome_iff (c : ColumnConfig) (k : String) :
    (objectGet c k).isSome = true ↔ k ∈ objectKeys c := by
  constructor
  · intro hs
    by_contra hk
    rw [(objectGet_eq_none_iff c k).mpr hk] at hs
    simp at hs
  · intro hk
    rcases h : objectGet c k with _ | v
    · exact absurd hk ((objectGet_eq_none_iff c k).mp h)
    · rfl

/-- With unique keys on both sides — as JS objects guarantee — the code's
`equal` computes exactly the spec's shallow key-wise equality: the same key
set with the same value for each key, i.e. agreement of every property
read. -/
theorem equal_iff_sameShallowConfig (c1 c2 : ColumnConfig)
    (h1 : (objectKeys c1).Nodup) (h2 : (objectKeys c2).Nodup) :
    equal c1 c2 = true ↔ sameShallowConfig c1 c2 := by
  rw [equal, Bool.and_eq_true, beq_iff_eq, List.all_eq_true]
  constructor
  · rintro ⟨hlen, hall⟩ k
    by_cases hk : k ∈ objectKeys c1
    · have := hall k hk
      rwa [beq_iff_eq] at this
    · have hget1 : objectGet c1 k = none := (objectGet_eq_none_iff c1 k).mpr hk
      have hsub : (objectKeys c1).toFinset ⊆ (objectKeys c2).toFinset := by
        intro j hj
        rw [List.mem_toFinset] at hj ⊢
        have hj1 : (objectGet c1 j).isSome = true :=
          (objectGet_isSome_iff c1 j).mpr hj
        have := hall j hj
        rw [beq_iff_eq] at this
        rw [← objectGet_isSome_iff, ← this]
        exact hj1
      have hcard : ((objectKeys c2).toFinset).card ≤
          ((objectKeys c1).toFinset).card := by
        rw [List.toFinset_card_of_nodup h1, List.toFinset_card_of_nodup h2, hlen]
      have hsets := Finset.eq_of_subset_of_card_le hsub hcard
      have hk2 : k ∉ objectKeys c2 := by
        intro hmem
        exact hk (by
          rw [← List.mem_toFinset, hsets, List.mem_toFinset]; exact hmem)
      rw [hget1, Eq.comm, objectGet_eq_none_iff]
      exact hk2
  · intro hsame
    have hsets : (objectKeys c1).toFinset = (objectKeys c2).toFinset := by
      ext j
      rw [List.mem_toFinset, List.mem_toFinset, ← objectGet_isSome_iff,
        ← objectGet_isSome_iff, hsame j]
    refine ⟨?_, fun k _ => by rw [beq_iff_eq]; exact hsame k⟩
    rw [← List.toFinset_card_of_nodup h1, ← List.toFinset_card_of_nodup h2, hsets]

/-- C7: with unique configuration keys, `saveColumnConfiguration c`
invokes the mutation capability (exactly once) and replaces both the
persisted `configuration.table.columns` and the cached configuration if and
only if `c` differs from the cached configuration under shallow key-wise
equality; when they are shallowly equal, the domain object's model, the
cached configuration and the mutation count are all left unchanged. -/
theorem C7_save_column_configuration (st : TableConfigState)
    (c : ColumnConfig)
    (h1 : (objectKeys st.columnConfiguration).Nodup)
    (h2 : (objectKeys c).Nodup) :
    (sameShallowConfig st.columnConfiguration c →
        saveColumnConfiguration st c = st)
    ∧ (¬ sameShallowConfig st.columnConfiguration c →
        saveColumnConfiguration st c =
          ⟨mutateModel st.domainObject c, c, st.mutationCalls + 1⟩) := by
  constructor
  · intro hsame
    have heq : equal st.columnConfiguration c = true :=
      (equal_iff_sameShallowConfig _ _ h1 h2).mpr hsame
    simp [saveColumnConfiguration, heq]
  · intro hdiff
    have heq : equal st.columnConfiguration c ≠ true :=
      fun h => hdiff ((equal_iff_sameShallowConfig _ _ h1 h2).mp h)
    simp [saveColumnConfiguration, heq]

/-- Witness for C7: saving `{a: true}` over an empty cached configuration
mutates the model, stores the new configuration, and counts one mutation. -/
theorem C7_save_column_configuration_witness :
    saveColumnConfiguration ⟨⟨none⟩, [], 0⟩ [("a", true)] =
      ⟨mutateModel ⟨none⟩ [("a", true)], [("a", true)], 0 + 1⟩ :=
  (C7_save_column_configuration ⟨⟨none⟩, [], 0⟩ [("a", true)]
      (by decide) (by decide)).2
    (fun h => absurd (h "a") (by decide))

/-- Reading a property after a cons. -/
theorem rowGet_cons (a : String × Option Cell) (row : RowMap) (t : String) :
    rowGet (a :: row) t = if a.1 = t then some a.2 else rowGet row t := by
  by_cases h : a.1 = t
  · have hb : (a.1 == t) = true := by simpa using h
    simp [rowGet, List.find?_cons, hb, h]
  · have hb : (a.1 == t) = false := by simpa using h
    simp [rowGet, List.find?_cons, hb, h]

/-- In the overwrite branch of `rowSet`, the written key reads back the
written value. -/
theorem rowGet_map_overwrite_self (row : RowMap) (k : String) (v : Option Cell)
    (h : (row.find? (fun p => p.1 == k)).isSome = true) :
    rowGet (row.map (fun p => if p.1 == k then (k, v) else p)) k = some v := by
  induction row with
  | nil => simp at h
  | cons a row ih =>
      by_cases ha : a.1 = k
      · have hb : (a.1 == k) = true := by simpa using ha
        simp [hb, ha, rowGet_cons]
      · have hb : (a.1 == k) = false := by simpa using ha
        simp only [List.find?_cons, hb] at h
        simp only [List.map_cons, hb, Bool.false_eq_true, if_false,
          rowGet_cons, if_neg ha]
        exact ih h

/-- In the overwrite branch of `rowSet`, every other key is untouched. -/
theorem rowGet_map_overwrite_other (row : RowMap) (k : String)
    (v : Option Cell) (t : String) (h : t ≠ k) :
    rowGet (row.map (fun p => if p.1 == k then (k, v) else p)) t =
      rowGet row t := by
  induction row with
  | nil => rfl
  | cons a row ih =>
      by_cases ha : a.1 = k
      · rw [List.map_cons, if_pos (by simpa using ha), rowGet_cons,
          rowGet_cons, if_neg (fun hk => h hk.symm), if_neg (ha ▸ fun hk => h hk.symm)]
        exact ih
      · rw [List.map_cons, if_neg (by simpa using ha), rowGet_cons, rowGet_cons]
        by_cases hat : a.1 = t
        · simp [hat]
        · rw [if_neg hat, if_neg hat]
          exact ih

/-- In the append branch of `rowSet`, the written key reads back the
written value. -/
theorem rowGet_append_self (row : RowMap) (k : String) (v : Option Cell)
    (h : row.find? (fun p => p.1 == k) = none) :
    rowGet (row ++ [(k, v)]) k = some v := by
  simp [rowGet, List.find?_append, h]

/-- In the append branch of `rowSet`, every other key is untouched. -/
theorem rowGet_append_other (row : RowMap) (k : String) (v : Option Cell)
    (t : String) (h : t ≠ k) :
    rowGet (row ++ [(k, v)]) t = rowGet row t := by
  have hk : (k == t) = false := by simpa using fun hk => h hk.symm
  simp [rowGet, List.find?_append, hk]

/-- `rowSet` writes the given key. -/
theorem rowGet_rowSet_self (row : RowMap) (k : String) (v : Option Cell) :
    rowGet (rowSet row k v) k = some v := by
  rw [rowSet]
  rcases hf : row.find? (fun p => p.1 == k) with _ | a
  · rw [hf]
    simp only [Option.isSome_none, Bool.false_eq_true, if_false]
    exact rowGet_append_self row k v hf
  · rw [hf]
    simp only [Option.isSome_some, if_true]
    exact rowGet_map_overwrite_self row k v (by simp [hf])

/-- `rowSet` leaves every other key alone. -/
theorem rowGet_rowSet_other (row : RowMap) (k : String) (v : Option Cell)
    (t : String) (h : t ≠ k) :
    rowGet (rowSet row k v) t = rowGet row t := by
  rw [rowSet]
  by_cases hf : (row.find? (fun p => p.1 == k)).isSome = true
  · rw [if_pos hf]
    exact rowGet_map_overwrite_other row k v t h
  · rw [if_neg hf]
    exact rowGet_append_other row k v t h

/-- An entry whose `text` is present and nonempty survives one `reduce`
step: the guard refuses to replace it, and writes to other titles do not
touch it. -/
theorem rowStep_preserves {δ : Type} (datum : δ) (acc : RowMap) (i : Nat)
    (c : RowColumn δ) (t s : String) (hs : s ≠ "")
    (h : rowGet acc t = some (some ⟨some s⟩)) :
    rowGet (rowStep datum acc i c) t = some (some ⟨some s⟩) := by
  rw [rowStep]
  by_cases ht : t = effectiveTitle i c.title
  · rw [← ht, h]
    have hlen : (s.length == 0) = false := by
      simp only [beq_eq_false_iff_ne, ne_eq]
      intro hzero
      apply hs
      cases s with
      | mk data =>
          simp [String.length] at hzero
          simp [hzero]
    simp only [shouldReplace, hlen, Bool.false_eq_true, if_false]
    exact h
  · split
    · rw [rowGet_rowSet_other _ _ _ _ ht]
      exact h
    · exact h

/-- An entry whose `text` is present and nonempty survives the rest of the
`reduce`. -/
theorem getRowValuesFrom_preserves {δ : Type} (datum : δ)
    (cs : List (RowColumn δ)) (acc : RowMap) (i : Nat) (t s : String)
    (hs : s ≠ "") (h : rowGet acc t = some (some ⟨some s⟩)) :
    rowGet (getRowValuesFrom datum acc i cs) t = some (some ⟨some s⟩) := by
  induction cs generalizing acc i with
  | nil => exact h
  | cons c cs ih =>
      exact ih _ _ (rowStep_preserves datum acc i c t s hs h)

/-- Splitting the `reduce` at a list split. -/
theorem getRowValuesFrom_append {δ : Type} (datum : δ)
    (xs ys : List (RowColumn δ)) (acc : RowMap) (i : Nat) :
    getRowValuesFrom datum acc i (xs ++ ys) =
      getRowValuesFrom datum (getRowValuesFrom datum acc i xs)
        (i + xs.length) ys := by
  induction xs generalizing acc i with
  | nil => simp [getRowValuesFrom]
  | cons x xs ih =>
      rw [List.cons_append]
      show getRowValuesFrom datum (rowStep datum acc i x) (i + 1) (xs ++ ys) = _
      rw [ih]
      congr 1
      simp [List.length_cons]
      omega

/-- C9: in the row object `getRowValues` builds, (a) an entry recorded
with a defined nonempty `text` while processing a column-list position is
still the final value for its title after every later column, and (b) one
`reduce` step changes the entry of a title only when the existing entry is
`undefined`, or has `undefined` text, or has empty text. -/
theorem C9_getRowValues_no_overwrite {δ : Type} (datum : δ) :
    (∀ (pre post : List (RowColumn δ)) (t s : String), s ≠ "" →
        rowGet (getRowValues pre datum) t = some (some ⟨some s⟩) →
        rowGet (getRowValues (pre ++ post) datum) t = some (some ⟨some s⟩))
    ∧ (∀ (acc : RowMap) (i : Nat) (c : RowColumn δ) (t : String),
        rowGet (rowStep datum acc i c) t ≠ rowGet acc t →
        rowGet acc t = none ∨ rowGet acc t = some none ∨
          ∃ cell, rowGet acc t = some (some cell) ∧
            (cell.text = none ∨ cell.text = some "")) := by
  constructor
  · intro pre post t s hs hpre
    rw [getRowValues, getRowValuesFrom_append]
    rw [getRowValues] at hpre
    exact getRowValuesFrom_preserves datum post _ _ t s hs hpre
  · intro acc i c t hchanged
    rw [rowStep] at hchanged
    by_cases hrep : shouldReplace (rowGet acc (effectiveTitle i c.title)) = true
    · by_cases ht : t = effectiveTitle i c.title
      · rw [← ht] at hrep
        rcases hacc : rowGet acc t with _ | w
        · exact Or.inl rfl
        · rcases w with _ | cell
          · exact Or.inr (Or.inl rfl)
          · refine Or.inr (Or.inr ⟨cell, rfl, ?_⟩)
            rw [hacc] at hrep
            simp only [shouldReplace] at hrep
            rcases htext : cell.text with _ | s
            · exact Or.inl rfl
            · rw [htext] at hrep
              simp only [beq_iff_eq] at hrep
              have hs0 : s = "" := by
                cases s with
                | mk data =>
                    simp [String.length] at hrep
                    simp [hrep]
              exact Or.inr (by rw [hs0])
      · exact absurd (by
          rw [if_pos hrep]
          exact rowGet_rowSet_other _ _ _ _ ht) hchanged
    · exact absurd (by rw [if_neg hrep]) hchanged

/-- Witness for C9: two columns titled `T`; the first records text `x`,
and the second — whose value would be `y` — does not overwrite it. -/
theorem C9_getRowValues_no_overwrite_witness :
    rowGet
      (getRowValues
        [⟨some "T", fun _ => some ⟨some "x"⟩⟩,
         ⟨some "T", fun _ => some ⟨some "y"⟩⟩] (0 : Nat)) "T" =
      some (some ⟨some "x"⟩) :=
  (C9_getRowValues_no_overwrite (0 : Nat)).1
    [⟨some "T", fun _ => some ⟨some "x"⟩⟩]
    [⟨some "T", fun _ => some ⟨some "y"⟩⟩] "T" "x"
    (by decide) (by decide)

end OpenMCT
